import Mathlib

/-!
Shallow embedding of the sanitized-name mapping and resolution layer of
`serve_videos.py` (a small Flask media server), together with proofs of the
specification's claims about it.

Modelling conventions:
* Python strings are `List Char` (one element per Unicode code point).
* The filesystem is an abstract, finite map from (already canonical)
  directory paths to directory listings; a listing is a list of entries
  carrying a name and an is-regular-file flag.  Path canonicalisation
  (`Path.resolve`) is the identity on these abstract paths, and the
  OS-provided local-IP lookup is passed in as a parameter.
* The mutable Flask `app.config` dictionary is the `Config` record; each
  HTTP handler is embedded as a pure function from the old `Config` (and the
  filesystem) to its outcome paired with the new `Config`.
* Percent encoding/decoding (`urllib.parse.quote` with `safe=''` /
  `urllib.parse.unquote`) is embedded down to the UTF-8 byte level, with the
  decoder following the `errors='replace'` convention of emitting U+FFFD.
-/

namespace HomeStream

/-- Whitespace exactly as Python's `str.split` / `str.strip` (no arguments)
treat it: the code points for which `str.isspace` holds. -/
def isPySpace (c : Char) : Bool :=
  let n := c.toNat
  (9 ≤ n && n ≤ 13) || (28 ≤ n && n ≤ 32) || n == 133 || n == 160 ||
    n == 5760 || (8192 ≤ n && n ≤ 8202) || n == 8232 || n == 8233 ||
    n == 8239 || n == 8287 || n == 12288

/-- Embedding of `name.replace('(', '').replace(')', '')`: removing every
occurrence of the two parenthesis characters. -/
def removeParens (s : List Char) : List Char :=
  s.filter (fun c => !(c == '(' || c == ')'))

/-- Accumulator-style worker for Python's `str.split()` (split on runs of
whitespace, dropping empty pieces).  `acc` holds the current word reversed. -/
def splitAux : List Char → List Char → List (List Char)
  | [], acc => if acc.isEmpty then [] else [acc.reverse]
  | c :: rest, acc =>
    if isPySpace c then
      if acc.isEmpty then splitAux rest [] else acc.reverse :: splitAux rest []
    else splitAux rest (c :: acc)

/-- Embedding of Python's `s.split()`. -/
def pySplit (s : List Char) : List (List Char) :=
  splitAux s []

/-- Embedding of `" ".join(ws)`. -/
def joinSp : List (List Char) → List Char
  | [] => []
  | [w] => w
  | w :: ws => w ++ ' ' :: joinSp ws

/-- Embedding of `sanitize_visible` (serve_videos.py lines 135-140):
`s = name.replace('(', '').replace(')', '')` followed by
`s = " ".join(s.split())`. -/
def sanitize_visible (s : List Char) : List Char :=
  joinSp (pySplit (removeParens s))

/-- Embedding of Python's `s.strip()` (strip leading and trailing
whitespace). -/
def pyStrip (s : List Char) : List Char :=
  ((s.dropWhile isPySpace).reverse.dropWhile isPySpace).reverse

/-- Fuel-driven worker producing the decimal digits of `n` (the fuel keeps
the recursion structural; `natDigits` supplies enough fuel). -/
def natDigitsAux : Nat → Nat → List Char
  | 0, _ => []
  | fuel + 1, n =>
    if n < 10 then [Char.ofNat (48 + n)]
    else natDigitsAux fuel (n / 10) ++ [Char.ofNat (48 + n % 10)]

/-- Embedding of Python's `str(n)` for a natural number `n`. -/
def natDigits (n : Nat) : List Char :=
  natDigitsAux (n + 1) n

/-- Decimal value of a digit string; used to prove `natDigits` injective. -/
def natVal (s : List Char) : Nat :=
  s.foldl (fun a c => a * 10 + (c.toNat - 48)) 0

/-- Characters `urllib.parse.quote` never escapes (its `always_safe` set:
ASCII letters, digits, and `_.-~`); `safe=''` adds nothing to it. -/
def isUnreserved (c : Char) : Bool :=
  c.isAlphanum || c == '_' || c == '.' || c == '-' || c == '~'

/-- UTF-8 encoding of one code point, as CPython's `str.encode('utf-8')`
produces it byte by byte. -/
def utf8EncodeChar (c : Char) : List Nat :=
  let n := c.toNat
  if n < 128 then [n]
  else if n < 2048 then [192 + n / 64, 128 + n % 64]
  else if n < 65536 then [224 + n / 4096, 128 + n / 64 % 64, 128 + n % 64]
  else [240 + n / 262144, 128 + n / 4096 % 64, 128 + n / 64 % 64, 128 + n % 64]

/-- Uppercase hexadecimal digit, as `urllib.parse.quote` emits. -/
def hexDigitChar (n : Nat) : Char :=
  if n < 10 then Char.ofNat (48 + n) else Char.ofNat (55 + n)

/-- Percent-escape of a single byte: `'%XY'` with uppercase hex digits. -/
def escByte (b : Nat) : List Char :=
  ['%', hexDigitChar (b / 16), hexDigitChar (b % 16)]

/-- Embedding of `urllib.parse.quote(c, safe='')` on one character:
unreserved characters pass through, everything else is escaped byte by
byte through UTF-8. -/
def pquoteChar (c : Char) : List Char :=
  if isUnreserved c then [c] else (utf8EncodeChar c).flatMap escByte

/-- Embedding of `urllib.parse.quote(s, safe='')`. -/
def pquote (s : List Char) : List Char :=
  s.flatMap pquoteChar

/-- The U+FFFD replacement character emitted by `errors='replace'`. -/
def replChar : Char := Char.ofNat 65533

/-- UTF-8 decoder with `errors='replace'` semantics (as used by
`urllib.parse.unquote`'s default `str.decode('utf-8', 'replace')`): valid
sequences decode to their code point, ill-formed input yields U+FFFD per
maximal invalid subpart. -/
def utf8Decode : List Nat → List Char
  | [] => []
  | b :: bs =>
    if b < 128 then Char.ofNat b :: utf8Decode bs
    else if 194 ≤ b ∧ b < 224 then
      match bs with
      | b2 :: bs2 =>
        if 128 ≤ b2 ∧ b2 < 192 then
          Char.ofNat ((b - 192) * 64 + (b2 - 128)) :: utf8Decode bs2
        else replChar :: utf8Decode (b2 :: bs2)
      | [] => [replChar]
    else if 224 ≤ b ∧ b < 240 then
      match bs with
      | b2 :: bs2 =>
        if 128 ≤ b2 ∧ b2 < 192 ∧ (b = 224 → 160 ≤ b2) ∧ (b = 237 → b2 < 160) then
          match bs2 with
          | b3 :: bs3 =>
            if 128 ≤ b3 ∧ b3 < 192 then
              Char.ofNat ((b - 224) * 4096 + (b2 - 128) * 64 + (b3 - 128)) :: utf8Decode bs3
            else replChar :: utf8Decode (b3 :: bs3)
          | [] => [replChar]
        else replChar :: utf8Decode (b2 :: bs2)
      | [] => [replChar]
    else if 240 ≤ b ∧ b < 245 then
      match bs with
      | b2 :: bs2 =>
        if 128 ≤ b2 ∧ b2 < 192 ∧ (b = 240 → 144 ≤ b2) ∧ (b = 244 → b2 < 144) then
          match bs2 with
          | b3 :: bs3 =>
            if 128 ≤ b3 ∧ b3 < 192 then
              match bs3 with
              | b4 :: bs4 =>
                if 128 ≤ b4 ∧ b4 < 192 then
                  Char.ofNat ((b - 240) * 262144 + (b2 - 128) * 4096 + (b3 - 128) * 64 + (b4 - 128)) ::
                    utf8Decode bs4
                else replChar :: utf8Decode (b4 :: bs4)
              | [] => [replChar]
            else replChar :: utf8Decode (b3 :: bs3)
          | [] => [replChar]
        else replChar :: utf8Decode (b2 :: bs2)
      | [] => [replChar]
    else replChar :: utf8Decode bs
termination_by bs => bs.length
decreasing_by all_goals simp_arith

/-- Recognition of one hexadecimal digit (either case), as accepted by
`urllib.parse.unquote`. -/
def isHexDigit (c : Char) : Bool :=
  (48 ≤ c.toNat && c.toNat ≤ 57) || (65 ≤ c.toNat && c.toNat ≤ 70) ||
    (97 ≤ c.toNat && c.toNat ≤ 102)

/-- Numeric value of a hexadecimal digit character. -/
def hexVal (c : Char) : Nat :=
  if c.toNat ≤ 57 then c.toNat - 48
  else if c.toNat ≤ 70 then c.toNat - 55
  else c.toNat - 87

/-- Worker for `urllib.parse.unquote`: scans the string, accumulating the
bytes of consecutive `%XY` escapes in `acc` (reversed); any other character
flushes the accumulated bytes through the replacing UTF-8 decoder and passes
through itself, exactly as CPython decodes each maximal ASCII `%`-run as one
byte string.  A `%` not followed by two hex digits is literal. -/
def unquoteAux : List Char → List Nat → List Char
  | [], acc => utf8Decode acc.reverse
  | [c], acc =>
    if c = '%' then utf8Decode acc.reverse ++ ['%']
    else utf8Decode acc.reverse ++ [c]
  | [c, d], acc =>
    if c = '%' then utf8Decode acc.reverse ++ '%' :: unquoteAux [d] []
    else utf8Decode acc.reverse ++ c :: unquoteAux [d] []
  | c :: d :: e :: rest, acc =>
    if c = '%' then
      if isHexDigit d && isHexDigit e then
        unquoteAux rest ((hexVal d * 16 + hexVal e) :: acc)
      else utf8Decode acc.reverse ++ '%' :: unquoteAux (d :: e :: rest) []
    else utf8Decode acc.reverse ++ c :: unquoteAux (d :: e :: rest) []

/-- Embedding of `urllib.parse.unquote(s)` (UTF-8, `errors='replace'`). -/
def punquote (s : List Char) : List Char :=
  unquoteAux s []

/-- One directory entry: a name plus whether it is a regular file
(`Path.is_file()`). -/
structure DirEntry where
  name : List Char
  isFile : Bool
deriving DecidableEq

/-- Abstract filesystem: a finite association of directory paths to their
listings.  A path maps to a listing exactly when `exists() and is_dir()`
holds for it. -/
structure FileSystem where
  dirs : List (List Char × List DirEntry)
deriving DecidableEq

/-- Directory lookup: `some listing` when the path is an existing directory. -/
def FileSystem.lookupDir (fs : FileSystem) (p : List Char) : Option (List DirEntry) :=
  (fs.dirs.find? (fun d => d.1 == p)).map Prod.snd

/-- Embedding of the module-level `app.config` runtime state
(serve_videos.py lines 115-117): `VIDEO_DIR`, `SANITIZED_MAP` (an
insertion-ordered dictionary, here an association list from actual filename
to sanitized key) and `HOST_IP`. -/
structure Config where
  VIDEO_DIR : Option (List Char)
  SANITIZED_MAP : List (List Char × List Char)
  HOST_IP : Option (List Char)
deriving DecidableEq

/-- The initial configuration (no folder loaded). -/
def initialConfig : Config :=
  { VIDEO_DIR := none, SANITIZED_MAP := [], HOST_IP := none }

/-- The extension allow-list `VIDEO_EXTS` of serve_videos.py line 130. -/
def VIDEO_EXTS : List (List Char) :=
  [".mp4".data, ".mkv".data, ".avi".data, ".mov".data,
    ".flv".data, ".wmv".data, ".webm".data, ".m4v".data]

/-- Embedding of `pathlib.PurePath.suffix`: the substring from the last dot,
provided that dot is neither the first nor the last character. -/
def pySuffix (s : List Char) : List Char :=
  let tail := s.reverse.takeWhile (fun c => !(c == '.'))
  if tail.length = s.length then []
  else
    let i := s.length - tail.length - 1
    if 0 < i ∧ i < s.length - 1 then s.drop i else []

/-- Embedding of `is_video_file` (serve_videos.py lines 132-133):
`p.suffix.lower() in VIDEO_EXTS`.  (`Char.toLower` lowercases ASCII, which
is all the comparison against the ASCII allow-list can discriminate.) -/
def is_video_file (name : List Char) : Bool :=
  VIDEO_EXTS.contains ((pySuffix name).map Char.toLower)

/-- Code-point-wise lexicographic comparison of strings, the order by which
Python's `sorted()` arranges the paths of a common directory. -/
def lexLe : List Char → List Char → Bool
  | [], _ => true
  | _ :: _, [] => false
  | a :: as, b :: bs =>
    if a.toNat < b.toNat then true
    else if b.toNat < a.toNat then false
    else lexLe as bs

/-- Ordered insertion used to embed `sorted()`. -/
def insertLe (le : α → α → Bool) (x : α) : List α → List α
  | [] => [x]
  | y :: ys => if le x y then x :: y :: ys else y :: insertLe le x ys

/-- Insertion sort embedding `sorted()`; listings carry pairwise distinct
names, for which any sort by a total order yields the same result. -/
def sortLe (le : α → α → Bool) : List α → List α
  | [] => []
  | x :: xs => insertLe le x (sortLe le xs)

/-- The entries `set_folder` (and the index view) iterate over, in scan
order: `sorted(folder_path.iterdir())` filtered by
`p.is_file() and is_video_file(p)`. -/
def acceptedEntries (entries : List DirEntry) : List DirEntry :=
  (sortLe (fun e1 e2 => lexLe e1.name e2.name) entries).filter
    (fun e => e.isFile && is_video_file e.name)

/-- The accepted filenames of a listing, in scan order. -/
def acceptedNames (entries : List DirEntry) : List (List Char) :=
  (acceptedEntries entries).map DirEntry.name

/-- The candidate keys tried by the collision loop of `set_folder`
(lines 180-184): `sanitized` for `i = 1`, then `f"{sanitized} {i}"`. -/
def candidate (base : List Char) (i : Nat) : List Char :=
  if i = 1 then base else base ++ ' ' :: natDigits i

/-- Fuel-driven embedding of the `while key in sanitized_map.values()` loop:
keeps incrementing `i` while the candidate key is taken.  `freshKey` supplies
fuel `vals.length + 1`, which the pigeonhole argument below shows is enough
for the loop to have terminated. -/
def freshAux (vals : List (List Char)) (base : List Char) : Nat → Nat → List Char
  | 0, i => candidate base i
  | fuel + 1, i =>
    if candidate base i ∈ vals then freshAux vals base fuel (i + 1)
    else candidate base i

/-- The key `set_folder` assigns for sanitized base `base` when the keys in
`vals` are already assigned. -/
def freshKey (vals : List (List Char)) (base : List Char) : List Char :=
  freshAux vals base (vals.length + 1) 1

/-- Python dictionary assignment `d[a] = v` on an insertion-ordered
association list: overwrite in place if the key is present, else append. -/
def dictInsert (m : List (List Char × List Char)) (a v : List Char) :
    List (List Char × List Char) :=
  if m.any (fun p => p.1 == a) then
    m.map (fun p => if p.1 == a then (a, v) else p)
  else m ++ [(a, v)]

/-- The `for p in sorted(folder_path.iterdir())` loop body of `set_folder`
(lines 175-185), processing the accepted filenames in scan order. -/
def buildMapGo : List (List Char) → List (List Char × List Char) → List (List Char × List Char)
  | [], m => m
  | a :: rest, m =>
    buildMapGo rest (dictInsert m a (freshKey (m.map Prod.snd) (sanitize_visible a)))

/-- The `sanitized_map` built by one load pass over the accepted names. -/
def buildMap (names : List (List Char)) : List (List Char × List Char) :=
  buildMapGo names []

/-- Outcome of the `/set_folder` handler, as its control flow distinguishes
them: empty submitted path, nonexistent/non-directory path, or success. -/
inductive LoadResult
  | emptyPath
  | invalidDirectory
  | ok
deriving DecidableEq

/-- Embedding of the `set_folder` handler (serve_videos.py lines 161-190).
`ip` is the value `get_local_ip()` returns during this request.  On the two
failure paths the handler only flashes a message and redirects, leaving
`app.config` untouched. -/
def set_folder (fs : FileSystem) (rawFolder ip : List Char) (cfg : Config) :
    LoadResult × Config :=
  let folder := pyStrip rawFolder
  if folder = [] then (LoadResult.emptyPath, cfg)
  else
    match fs.lookupDir folder with
    | none => (LoadResult.invalidDirectory, cfg)
    | some entries =>
      (LoadResult.ok,
        { VIDEO_DIR := some folder
          SANITIZED_MAP := buildMap (acceptedNames entries)
          HOST_IP := some ip })

/-- Observable outcome of the `/files/<key>` handler: a file served from
disk, the 404 `"File not found"` response, or an uncaught exception
(HTTP 500). -/
inductive ServeOutcome
  | file (name : List Char)
  | notFound
  | error
deriving DecidableEq

/-- Embedding of the `serve_by_key` handler (serve_videos.py lines 198-219).
The handler percent-decodes the key, constructs `Path(app.config['VIDEO_DIR'])`
(which raises `TypeError` when `VIDEO_DIR` is `None`), scans the dictionary
for the first filename whose sanitized value equals the decoded key, falls
back to a fresh directory listing compared against the exact filename, and
404s otherwise.  It never assigns to `app.config`. -/
def serve_by_key (fs : FileSystem) (cfg : Config) (key : List Char) :
    ServeOutcome × Config :=
  let decoded := punquote key
  match cfg.VIDEO_DIR with
  | none => (ServeOutcome.error, cfg)
  | some dir =>
    match cfg.SANITIZED_MAP.find? (fun p => p.2 == decoded) with
    | some p => (ServeOutcome.file p.1, cfg)
    | none =>
      match fs.lookupDir dir with
      | none => (ServeOutcome.error, cfg)
      | some entries =>
        match entries.find? (fun e => e.name == decoded) with
        | some e => (ServeOutcome.file e.name, cfg)
        | none => (ServeOutcome.notFound, cfg)

/-- Observable outcome of the `/playlist.m3u` handler: the playlist document
body, or an uncaught exception. -/
inductive PlaylistOutcome
  | body (s : List Char)
  | error
deriving DecidableEq

/-- The fixed server port (serve_videos.py line 26). -/
def PORT : Nat := 8000

/-- The absolute stream URL `f"http://{host_ip}:{PORT}/files/{encoded}"`
for one sanitized key. -/
def urlFor (hostIp key : List Char) : List Char :=
  "http://".data ++ hostIp ++ ':' :: natDigits PORT ++ "/files/".data ++ pquote key

/-- Embedding of `"\n".join(lines)`. -/
def joinNl : List (List Char) → List Char
  | [] => []
  | [w] => w
  | w :: ws => w ++ '\n' :: joinNl ws

/-- Embedding of `body = "\n".join(lines) + "\n"`. -/
def joinLines (ls : List (List Char)) : List Char :=
  joinNl ls ++ ['\n']

/-- Embedding of the `playlist_m3u` handler (serve_videos.py lines 221-231).
`localIp` is the value `get_local_ip()` would return; `Path(None)` raises
when no folder is loaded.  The body is the `#EXTM3U` header plus one URL per
dictionary entry, joined by newlines with one trailing newline. -/
def playlist_m3u (cfg : Config) (localIp : List Char) : PlaylistOutcome × Config :=
  match cfg.VIDEO_DIR with
  | none => (PlaylistOutcome.error, cfg)
  | some _ =>
    let hostIp := match cfg.HOST_IP with
      | some ip => if ip.isEmpty then localIp else ip
      | none => localIp
    let lines := "#EXTM3U".data :: cfg.SANITIZED_MAP.map (fun p => urlFor hostIp p.2)
    (PlaylistOutcome.body (joinLines lines), cfg)

/-- The snapshot publication of `set_folder` as it is written on source
lines 187-189: three separate assignments to `app.config`, in order
`VIDEO_DIR`, then `SANITIZED_MAP`, then `HOST_IP`.  Used to examine which
intermediate states a concurrent reader can observe between the individual
assignments (the server runs with `threaded=True`). -/
def publishWrites (loaded : Config) : List (Config → Config) :=
  [fun c => { c with VIDEO_DIR := loaded.VIDEO_DIR },
    fun c => { c with SANITIZED_MAP := loaded.SANITIZED_MAP },
    fun c => { c with HOST_IP := loaded.HOST_IP }]

/-- State of `app.config` after a prefix of a write sequence has executed. -/
def applyWrites (ws : List (Config → Config)) (c : Config) : Config :=
  ws.foldl (fun s w => w s) c

/-! Properties of the decimal rendering `natDigits`. -/

theorem natVal_append (xs : List Char) (c : Char) :
    natVal (xs ++ [c]) = natVal xs * 10 + (c.toNat - 48) := by
  simp [natVal, List.foldl_append]

theorem toNat_ofNat_digit (n : Nat) (h : n < 10) :
    (Char.ofNat (48 + n)).toNat = 48 + n := by
  interval_cases n <;> decide

theorem natVal_natDigitsAux (fuel n : Nat) (h : n < fuel) :
    natVal (natDigitsAux fuel n) = n := by
  induction fuel generalizing n with
  | zero => omega
  | succ fuel ih =>
    rw [natDigitsAux]
    by_cases h10 : n < 10
    · simp only [if_pos h10]
      show natVal ([] ++ [Char.ofNat (48 + n)]) = n
      rw [natVal_append, toNat_ofNat_digit n h10]
      simp [natVal]
    · simp only [if_neg h10]
      rw [natVal_append, ih (n / 10) (by omega), toNat_ofNat_digit (n % 10) (by omega)]
      omega

theorem natVal_natDigits (n : Nat) : natVal (natDigits n) = n :=
  natVal_natDigitsAux (n + 1) n (Nat.lt_succ_self n)

theorem natDigits_inj {m n : Nat} (h : natDigits m = natDigits n) : m = n := by
  have hm := natVal_natDigits m
  rw [h, natVal_natDigits] at hm
  omega

/-! Properties of the candidate keys tried by the collision loop. -/

theorem candidate_one (base : List Char) : candidate base 1 = base := by
  simp [candidate]

theorem candidate_of_two_le (base : List Char) {i : Nat} (h : 2 ≤ i) :
    candidate base i = base ++ ' ' :: natDigits i := by
  simp [candidate]
  omega

theorem candidate_inj (base : List Char) {i j : Nat} (hi : 1 ≤ i) (hj : 1 ≤ j)
    (h : candidate base i = candidate base j) : i = j := by
  rcases Nat.lt_or_ge i 2 with hi2 | hi2 <;> rcases Nat.lt_or_ge j 2 with hj2 | hj2
  · omega
  · exfalso
    have hi1 : i = 1 := by omega
    rw [hi1, candidate_one, candidate_of_two_le base hj2] at h
    have := congrArg List.length h
    simp at this
  · exfalso
    have hj1 : j = 1 := by omega
    rw [hj1, candidate_one, candidate_of_two_le base hi2] at h
    have := congrArg List.length h
    simp at this
  · rw [candidate_of_two_le base hi2, candidate_of_two_le base hj2] at h
    have h2 := List.append_cancel_left h
    exact natDigits_inj (by injection h2)

/-! Properties of the collision loop `freshAux`/`freshKey`. -/

theorem freshAux_shape (vals : List (List Char)) (base : List Char) (fuel : Nat) :
    ∀ i, ∃ j, i ≤ j ∧ freshAux vals base fuel i = candidate base j := by
  induction fuel with
  | zero => exact fun i => ⟨i, le_refl i, rfl⟩
  | succ fuel ih =>
    intro i
    rw [freshAux]
    by_cases hmem : candidate base i ∈ vals
    · rcases ih (i + 1) with ⟨j, hj, heq⟩
      exact ⟨j, by omega, by simp [hmem, heq]⟩
    · exact ⟨i, le_refl i, by simp [hmem]⟩

theorem freshAux_not_mem (vals : List (List Char)) (base : List Char) :
    ∀ (fuel i : Nat) (seen : List Nat),
      (∀ j ∈ seen, candidate base j ∈ vals ∧ 1 ≤ j ∧ j < i) → seen.Nodup → 1 ≤ i →
      vals.length < seen.length + fuel →
      freshAux vals base fuel i ∉ vals := by
  intro fuel
  induction fuel with
  | zero =>
    intro i seen hseen hnd _ hlen
    exfalso
    have hmapnd : (seen.map (candidate base)).Nodup := by
      refine List.Nodup.map_on ?_ hnd
      intro x hx y hy hxy
      exact candidate_inj base (hseen x hx).2.1 (hseen y hy).2.1 hxy
    have hsub : seen.map (candidate base) ⊆ vals := by
      intro v hv
      rcases List.mem_map.mp hv with ⟨j, hj, rfl⟩
      exact (hseen j hj).1
    have := (hmapnd.subperm hsub).length_le
    simp at this
    omega
  | succ fuel ih =>
    intro i seen hseen hnd hi hlen
    rw [freshAux]
    by_cases hmem : candidate base i ∈ vals
    · simp only [if_pos hmem]
      refine ih (i + 1) (i :: seen) ?_ ?_ (by omega) ?_
      · intro j hj
        rcases List.mem_cons.mp hj with rfl | hj
        · exact ⟨hmem, hi, by omega⟩
        · have := hseen j hj
          exact ⟨this.1, this.2.1, by omega⟩
      · refine List.nodup_cons.mpr ⟨?_, hnd⟩
        intro hmem'
        have := (hseen i hmem').2.2
        omega
      · simp
        omega
    · simp [hmem]

theorem freshKey_not_mem (vals : List (List Char)) (base : List Char) :
    freshKey vals base ∉ vals :=
  freshAux_not_mem vals base (vals.length + 1) 1 []
    (by intro j hj; cases hj) List.nodup_nil (le_refl 1) (by simp)

theorem freshKey_of_base_not_mem (vals : List (List Char)) (base : List Char)
    (h : base ∉ vals) : freshKey vals base = base := by
  rw [freshKey, freshAux]
  rw [candidate_one] at *
  simp [h]

theorem freshKey_of_base_mem (vals : List (List Char)) (base : List Char)
    (h : base ∈ vals) : ∃ j, 2 ≤ j ∧ freshKey vals base = candidate base j := by
  rw [freshKey, freshAux]
  have h1 : candidate base 1 ∈ vals := by rwa [candidate_one]
  simp only [if_pos h1]
  rcases freshAux_shape vals base vals.length 2 with ⟨j, hj, heq⟩
  exact ⟨j, hj, heq⟩

/-! Properties of the map-building pass of `set_folder`. -/

theorem dictInsert_of_not_mem (m : List (List Char × List Char)) (a v : List Char)
    (h : a ∉ m.map Prod.fst) : dictInsert m a v = m ++ [(a, v)] := by
  cases hany : m.any (fun p => p.1 == a) with
  | false => simp [dictInsert, hany]
  | true =>
    exfalso
    rcases List.any_eq_true.mp hany with ⟨p, hp, hpa⟩
    have hpa' : p.1 = a := by simpa using hpa
    exact h (hpa' ▸ List.mem_map_of_mem Prod.fst hp)

theorem buildMapGo_append (xs ys : List (List Char)) (m : List (List Char × List Char)) :
    buildMapGo (xs ++ ys) m = buildMapGo ys (buildMapGo xs m) := by
  induction xs generalizing m with
  | nil => rfl
  | cons a rest ih =>
    rw [List.cons_append, buildMapGo, buildMapGo]
    exact ih _

theorem buildMapGo_decomp (names : List (List Char)) :
    ∀ m : List (List Char × List Char), names.Nodup →
      (∀ x ∈ names, x ∉ m.map Prod.fst) →
      ∃ t, buildMapGo names m = m ++ t ∧ t.map Prod.fst = names := by
  induction names with
  | nil => exact fun m _ _ => ⟨[], by simp [buildMapGo], rfl⟩
  | cons a rest ih =>
    intro m hnd hdisj
    have ha : a ∉ m.map Prod.fst := hdisj a (List.mem_cons_self a rest)
    rw [buildMapGo, dictInsert_of_not_mem m a _ ha]
    have hnd' := List.nodup_cons.mp hnd
    have hdisj' : ∀ x ∈ rest,
        x ∉ (m ++ [(a, freshKey (m.map Prod.snd) (sanitize_visible a))]).map Prod.fst := by
      intro x hx
      simp only [List.map_append, List.mem_append]
      rintro (hxm | hxa)
      · exact hdisj x (List.mem_cons_of_mem a hx) hxm
      · simp at hxa
        exact hnd'.1 (hxa ▸ hx)
    rcases ih (m ++ [(a, freshKey (m.map Prod.snd) (sanitize_visible a))]) hnd'.2 hdisj' with
      ⟨t, ht, hfst⟩
    exact ⟨(a, freshKey (m.map Prod.snd) (sanitize_visible a)) :: t,
      by rw [ht]; simp, by simp [hfst]⟩

theorem buildMapGo_snd_nodup (names : List (List Char)) :
    ∀ m : List (List Char × List Char), names.Nodup →
      (∀ x ∈ names, x ∉ m.map Prod.fst) → (m.map Prod.snd).Nodup →
      ((buildMapGo names m).map Prod.snd).Nodup := by
  induction names with
  | nil => exact fun m _ _ hv => hv
  | cons a rest ih =>
    intro m hnd hdisj hv
    have ha : a ∉ m.map Prod.fst := hdisj a (List.mem_cons_self a rest)
    rw [buildMapGo, dictInsert_of_not_mem m a _ ha]
    have hnd' := List.nodup_cons.mp hnd
    refine ih _ hnd'.2 ?_ ?_
    · intro x hx
      simp only [List.map_append, List.mem_append]
      rintro (hxm | hxa)
      · exact hdisj x (List.mem_cons_of_mem a hx) hxm
      · simp at hxa
        exact hnd'.1 (hxa ▸ hx)
    · rw [List.map_append, List.nodup_append]
      refine ⟨hv, by simp, ?_⟩
      intro v hv' hv''
      simp at hv''
      exact freshKey_not_mem (m.map Prod.snd) (sanitize_visible a) (hv'' ▸ hv')

theorem buildMap_fst (names : List (List Char)) (h : names.Nodup) :
    (buildMap names).map Prod.fst = names := by
  rcases buildMapGo_decomp names [] h (by simp) with ⟨t, ht, hfst⟩
  rw [buildMap, ht]
  simpa using hfst

theorem buildMap_snd_nodup (names : List (List Char)) (h : names.Nodup) :
    ((buildMap names).map Prod.snd).Nodup :=
  buildMapGo_snd_nodup names [] h (by simp) (by simp)

/-! Permutation facts about the `sorted()` embedding. -/

theorem insertLe_perm (le : α → α → Bool) (x : α) (l : List α) :
    (insertLe le x l).Perm (x :: l) := by
  induction l with
  | nil => exact List.Perm.refl _
  | cons y ys ih =>
    rw [insertLe]
    by_cases h : le x y
    · simp [h]
    · simp only [if_neg h]
      exact (ih.cons y).trans (List.Perm.swap x y ys)

theorem sortLe_perm (le : α → α → Bool) (l : List α) : (sortLe le l).Perm l := by
  induction l with
  | nil => exact List.Perm.refl _
  | cons x xs ih => exact (insertLe_perm le x (sortLe le xs)).trans (ih.cons x)

theorem acceptedNames_nodup (entries : List DirEntry)
    (h : (entries.map DirEntry.name).Nodup) : (acceptedNames entries).Nodup := by
  have hperm := sortLe_perm (fun e1 e2 => lexLe e1.name e2.name) entries
  have hsortnd : ((sortLe (fun e1 e2 => lexLe e1.name e2.name) entries).map DirEntry.name).Nodup :=
    List.Perm.nodup (hperm.map DirEntry.name).symm h
  exact List.Sublist.nodup
    (List.Sublist.map DirEntry.name (List.filter_sublist _)) hsortnd

/-- Successful loads: the exact configuration `set_folder` publishes. -/
theorem set_folder_ok (fs : FileSystem) (rawFolder ip : List Char) (cfg : Config)
    (entries : List DirEntry)
    (hne : ¬ pyStrip rawFolder = [])
    (hdir : fs.lookupDir (pyStrip rawFolder) = some entries) :
    set_folder fs rawFolder ip cfg =
      (LoadResult.ok,
        { VIDEO_DIR := some (pyStrip rawFolder)
          SANITIZED_MAP := buildMap (acceptedNames entries)
          HOST_IP := some ip }) := by
  rw [set_folder]
  simp [hne, hdir]

/-- Concrete directory of the spec's collision scenario. -/
def showListing : List DirEntry :=
  [⟨"Show 2020 Ep1.mkv".data, true⟩, ⟨"Show (2020) Ep1.mkv".data, true⟩]

/-- Concrete filesystem holding `showListing` at path `/videos`. -/
def fsShow : FileSystem :=
  ⟨[("/videos".data, showListing)]⟩

/-- C1: for every directory accepted by a load, the built snapshot maps the
accepted filenames (in scan order) bijectively onto the sanitized keys:
each accepted filename occurs exactly once on the filename side, and the
key side carries no duplicates. -/
theorem C1_load_bijection (fs : FileSystem) (rawFolder ip : List Char) (cfg : Config)
    (entries : List DirEntry)
    (hne : ¬ pyStrip rawFolder = [])
    (hdir : fs.lookupDir (pyStrip rawFolder) = some entries)
    (hnd : (entries.map DirEntry.name).Nodup) :
    (set_folder fs rawFolder ip cfg).1 = LoadResult.ok ∧
    (set_folder fs rawFolder ip cfg).2.SANITIZED_MAP.map Prod.fst = acceptedNames entries ∧
    ((set_folder fs rawFolder ip cfg).2.SANITIZED_MAP.map Prod.fst).Nodup ∧
    ((set_folder fs rawFolder ip cfg).2.SANITIZED_MAP.map Prod.snd).Nodup := by
  rw [set_folder_ok fs rawFolder ip cfg entries hne hdir]
  have hand := acceptedNames_nodup entries hnd
  refine ⟨rfl, ?_, ?_, ?_⟩
  · exact buildMap_fst _ hand
  · rw [buildMap_fst _ hand]
    exact hand
  · exact buildMap_snd_nodup _ hand

/-- Witness for C1 at the concrete two-file directory. -/
theorem C1_load_bijection_witness :
    (set_folder fsShow ("/videos".data) ("192.168.1.5".data) initialConfig).1 = LoadResult.ok ∧
    (set_folder fsShow ("/videos".data) ("192.168.1.5".data) initialConfig).2.SANITIZED_MAP.map
        Prod.fst = acceptedNames showListing ∧
    ((set_folder fsShow ("/videos".data) ("192.168.1.5".data) initialConfig).2.SANITIZED_MAP.map
        Prod.fst).Nodup ∧
    ((set_folder fsShow ("/videos".data) ("192.168.1.5".data) initialConfig).2.SANITIZED_MAP.map
        Prod.snd).Nodup :=
  C1_load_bijection fsShow ("/videos".data) ("192.168.1.5".data) initialConfig showListing
    (by decide) (by decide) (by decide)

/-- Keys assigned to two accepted files with the same sanitized base, in
scan order: both are bound in the final map, the keys differ, and the later
file's key is the base plus a counter suffix with counter at least 2. -/
theorem buildMap_pair (l1 l2a l2b : List (List Char)) (f1 f2 : List Char)
    (hnd : (l1 ++ (f1 :: (l2a ++ f2 :: l2b))).Nodup)
    (hsan : sanitize_visible f1 = sanitize_visible f2) :
    ∃ k1 k2, (f1, k1) ∈ buildMap (l1 ++ (f1 :: (l2a ++ f2 :: l2b))) ∧
      (f2, k2) ∈ buildMap (l1 ++ (f1 :: (l2a ++ f2 :: l2b))) ∧ k2 ≠ k1 ∧
      ∃ j, 2 ≤ j ∧ k2 = sanitize_visible f2 ++ ' ' :: natDigits j := by
  rw [List.nodup_append] at hnd
  obtain ⟨hl1, hrest, hdisj1⟩ := hnd
  rw [List.nodup_cons] at hrest
  obtain ⟨hf1notin, hrest2⟩ := hrest
  rw [List.nodup_append] at hrest2
  obtain ⟨hl2a, hrest3, hdisj2⟩ := hrest2
  rw [List.nodup_cons] at hrest3
  obtain ⟨hf2notin, hl2b⟩ := hrest3
  obtain ⟨t1, hM1, hfst1⟩ := buildMapGo_decomp l1 [] hl1 (by simp)
  have hfstM1 : (buildMapGo l1 []).map Prod.fst = l1 := by
    rw [hM1]
    simpa using hfst1
  have hf1l1 : f1 ∉ l1 := fun h => hdisj1 h (List.mem_cons_self _ _)
  have hf2l1 : f2 ∉ l1 := fun h =>
    hdisj1 h (List.mem_cons_of_mem f1 (List.mem_append_right l2a (List.mem_cons_self _ _)))
  have hf2f1 : f2 ≠ f1 := by
    intro h
    exact hf1notin (h ▸ List.mem_append_right l2a (List.mem_cons_self _ _))
  have hf2l2a : f2 ∉ l2a := fun h => hdisj2 h (List.mem_cons_self _ _)
  have hbm : buildMap (l1 ++ (f1 :: (l2a ++ f2 :: l2b))) =
      buildMapGo (f1 :: (l2a ++ f2 :: l2b)) (buildMapGo l1 []) := by
    rw [buildMap, buildMapGo_append]
  have hstep1 : buildMapGo (f1 :: (l2a ++ f2 :: l2b)) (buildMapGo l1 []) =
      buildMapGo (l2a ++ f2 :: l2b) (buildMapGo l1 [] ++
        [(f1, freshKey ((buildMapGo l1 []).map Prod.snd) (sanitize_visible f1))]) := by
    rw [buildMapGo, dictInsert_of_not_mem]
    rw [hfstM1]
    exact hf1l1
  have hside2 : ∀ x ∈ l2a, x ∉ (buildMapGo l1 [] ++
      [(f1, freshKey ((buildMapGo l1 []).map Prod.snd) (sanitize_visible f1))]).map
        Prod.fst := by
    intro x hx
    simp only [List.map_append, List.mem_append, hfstM1]
    rintro (hxl1 | hxf1)
    · exact hdisj1 hxl1 (List.mem_cons_of_mem f1 (List.mem_append_left _ hx))
    · simp at hxf1
      exact hf1notin (hxf1 ▸ List.mem_append_left _ hx)
  obtain ⟨t2, hM2, hfst2⟩ := buildMapGo_decomp l2a
    (buildMapGo l1 [] ++
      [(f1, freshKey ((buildMapGo l1 []).map Prod.snd) (sanitize_visible f1))]) hl2a hside2
  have hk1mem : (f1, freshKey ((buildMapGo l1 []).map Prod.snd) (sanitize_visible f1)) ∈
      buildMapGo l2a (buildMapGo l1 [] ++
        [(f1, freshKey ((buildMapGo l1 []).map Prod.snd) (sanitize_visible f1))]) := by
    rw [hM2]
    exact List.mem_append_left _ (List.mem_append_right _ (List.mem_singleton.mpr rfl))
  have hk1snd : freshKey ((buildMapGo l1 []).map Prod.snd) (sanitize_visible f1) ∈
      (buildMapGo l2a (buildMapGo l1 [] ++
        [(f1, freshKey ((buildMapGo l1 []).map Prod.snd) (sanitize_visible f1))])).map
          Prod.snd :=
    List.mem_map_of_mem Prod.snd hk1mem
  have hbmem : sanitize_visible f2 ∈
      (buildMapGo l2a (buildMapGo l1 [] ++
        [(f1, freshKey ((buildMapGo l1 []).map Prod.snd) (sanitize_visible f1))])).map
          Prod.snd := by
    rw [← hsan]
    by_cases hbM1 : sanitize_visible f1 ∈ (buildMapGo l1 []).map Prod.snd
    · rw [hM2]
      simp only [List.map_append, List.mem_append]
      exact Or.inl (Or.inl hbM1)
    · exact List.mem_map.mpr
        ⟨(f1, freshKey ((buildMapGo l1 []).map Prod.snd) (sanitize_visible f1)), hk1mem,
          freshKey_of_base_not_mem _ _ hbM1⟩
  obtain ⟨j, hj2, hk2eq⟩ := freshKey_of_base_mem _ (sanitize_visible f2) hbmem
  have hk2notmem := freshKey_not_mem
    ((buildMapGo l2a (buildMapGo l1 [] ++
      [(f1, freshKey ((buildMapGo l1 []).map Prod.snd) (sanitize_visible f1))])).map Prod.snd)
    (sanitize_visible f2)
  have hfstM2 : (buildMapGo l2a (buildMapGo l1 [] ++
      [(f1, freshKey ((buildMapGo l1 []).map Prod.snd) (sanitize_visible f1))])).map
        Prod.fst = l1 ++ [f1] ++ l2a := by
    rw [hM2]
    simp [hfstM1, hfst2]
  have hstep2 : buildMapGo (f2 :: l2b)
      (buildMapGo l2a (buildMapGo l1 [] ++
        [(f1, freshKey ((buildMapGo l1 []).map Prod.snd) (sanitize_visible f1))])) =
      buildMapGo l2b
        (buildMapGo l2a (buildMapGo l1 [] ++
          [(f1, freshKey ((buildMapGo l1 []).map Prod.snd) (sanitize_visible f1))]) ++
          [(f2, freshKey ((buildMapGo l2a (buildMapGo l1 [] ++
            [(f1, freshKey ((buildMapGo l1 []).map Prod.snd) (sanitize_visible f1))])).map
              Prod.snd) (sanitize_visible f2))]) := by
    rw [buildMapGo, dictInsert_of_not_mem]
    rw [hfstM2]
    simp only [List.mem_append, List.mem_singleton]
    rintro ((h | h) | h)
    · exact hf2l1 h
    · exact hf2f1 h
    · exact hf2l2a h
  have hside3 : ∀ x ∈ l2b, x ∉ (buildMapGo l2a (buildMapGo l1 [] ++
      [(f1, freshKey ((buildMapGo l1 []).map Prod.snd) (sanitize_visible f1))]) ++
      [(f2, freshKey ((buildMapGo l2a (buildMapGo l1 [] ++
        [(f1, freshKey ((buildMapGo l1 []).map Prod.snd) (sanitize_visible f1))])).map
          Prod.snd) (sanitize_visible f2))]).map Prod.fst := by
    intro x hx hmem
    rw [List.map_append, hfstM2] at hmem
    rcases List.mem_append.mp hmem with h12 | hf2m
    · rcases List.mem_append.mp h12 with h1f | hl2am
      · rcases List.mem_append.mp h1f with h | h
        · exact hdisj1 h (List.mem_cons_of_mem f1
            (List.mem_append_right l2a (List.mem_cons_of_mem f2 hx)))
        · have hxf1 : x = f1 := List.mem_singleton.mp h
          exact hf1notin (hxf1 ▸ List.mem_append_right l2a (List.mem_cons_of_mem f2 hx))
      · exact hdisj2 hl2am (List.mem_cons_of_mem f2 hx)
    · have hxf2 : x = f2 := by simpa using hf2m
      exact hf2notin (hxf2 ▸ hx)
  obtain ⟨t3, hfinal, _⟩ := buildMapGo_decomp l2b
    (buildMapGo l2a (buildMapGo l1 [] ++
      [(f1, freshKey ((buildMapGo l1 []).map Prod.snd) (sanitize_visible f1))]) ++
      [(f2, freshKey ((buildMapGo l2a (buildMapGo l1 [] ++
        [(f1, freshKey ((buildMapGo l1 []).map Prod.snd) (sanitize_visible f1))])).map
          Prod.snd) (sanitize_visible f2))]) hl2b hside3
  refine ⟨freshKey ((buildMapGo l1 []).map Prod.snd) (sanitize_visible f1),
    freshKey ((buildMapGo l2a (buildMapGo l1 [] ++
      [(f1, freshKey ((buildMapGo l1 []).map Prod.snd) (sanitize_visible f1))])).map
        Prod.snd) (sanitize_visible f2), ?_, ?_, ?_, ?_⟩
  · rw [hbm, hstep1, buildMapGo_append, hstep2, hfinal]
    exact List.mem_append_left _ (List.mem_append_left _ hk1mem)
  · rw [hbm, hstep1, buildMapGo_append, hstep2, hfinal]
    exact List.mem_append_left _ (List.mem_append_right _ (List.mem_singleton.mpr rfl))
  · intro heq
    exact hk2notmem (by rw [heq]; exact hk1snd)
  · exact ⟨j, hj2, by rw [hk2eq, candidate_of_two_le _ hj2]⟩

/-- C2: accepted files whose names sanitize to the same base get distinct
keys; the one scanned later gets the base plus a counter suffix, the counter
starting at 2; and the concrete two-file directory of the spec yields
exactly the keys `Show 2020 Ep1.mkv` and `Show 2020 Ep1.mkv 2`. -/
theorem C2_collision_keys (fs : FileSystem) (rawFolder ip : List Char) (cfg : Config)
    (entries : List DirEntry) (l1 l2a l2b : List (List Char)) (f1 f2 : List Char)
    (hne : ¬ pyStrip rawFolder = [])
    (hdir : fs.lookupDir (pyStrip rawFolder) = some entries)
    (hnd : (entries.map DirEntry.name).Nodup)
    (hdec : acceptedNames entries = l1 ++ (f1 :: (l2a ++ f2 :: l2b)))
    (hsan : sanitize_visible f1 = sanitize_visible f2) :
    (∃ k1 k2, (f1, k1) ∈ (set_folder fs rawFolder ip cfg).2.SANITIZED_MAP ∧
      (f2, k2) ∈ (set_folder fs rawFolder ip cfg).2.SANITIZED_MAP ∧ k2 ≠ k1 ∧
      ∃ j, 2 ≤ j ∧ k2 = sanitize_visible f2 ++ ' ' :: natDigits j) ∧
    (set_folder fsShow ("/videos".data) ("192.168.1.5".data) initialConfig).2.SANITIZED_MAP =
      [("Show (2020) Ep1.mkv".data, "Show 2020 Ep1.mkv".data),
        ("Show 2020 Ep1.mkv".data, "Show 2020 Ep1.mkv 2".data)] := by
  constructor
  · rw [set_folder_ok fs rawFolder ip cfg entries hne hdir]
    have hnod : (acceptedNames entries).Nodup := acceptedNames_nodup entries hnd
    rw [hdec] at hnod
    show ∃ k1 k2, (f1, k1) ∈ buildMap (acceptedNames entries) ∧
      (f2, k2) ∈ buildMap (acceptedNames entries) ∧ k2 ≠ k1 ∧
      ∃ j, 2 ≤ j ∧ k2 = sanitize_visible f2 ++ ' ' :: natDigits j
    rw [hdec]
    exact buildMap_pair l1 l2a l2b f1 f2 hnod hsan
  · decide

/-- Witness for C2 at the concrete two-file directory. -/
theorem C2_collision_keys_witness :
    (∃ k1 k2,
      ("Show (2020) Ep1.mkv".data, k1) ∈
        (set_folder fsShow ("/videos".data) ("192.168.1.5".data) initialConfig).2.SANITIZED_MAP ∧
      ("Show 2020 Ep1.mkv".data, k2) ∈
        (set_folder fsShow ("/videos".data) ("192.168.1.5".data) initialConfig).2.SANITIZED_MAP ∧
      k2 ≠ k1 ∧
      ∃ j, 2 ≤ j ∧ k2 = sanitize_visible ("Show 2020 Ep1.mkv".data) ++ ' ' :: natDigits j) ∧
    (set_folder fsShow ("/videos".data) ("192.168.1.5".data) initialConfig).2.SANITIZED_MAP =
      [("Show (2020) Ep1.mkv".data, "Show 2020 Ep1.mkv".data),
        ("Show 2020 Ep1.mkv".data, "Show 2020 Ep1.mkv 2".data)] :=
  C2_collision_keys fsShow ("/videos".data) ("192.168.1.5".data) initialConfig showListing
    [] [] [] ("Show (2020) Ep1.mkv".data) ("Show 2020 Ep1.mkv".data)
    (by decide) (by decide) (by decide) (by decide) (by decide)

/-- Concrete one-entry snapshot of the spec's playlist scenario. -/
def cfgMovie : Config :=
  { VIDEO_DIR := some ("/videos".data)
    SANITIZED_MAP := [("movie.mp4".data, "movie.mp4".data)]
    HOST_IP := some ("192.168.1.5".data) }

/-- C5: loading a path that is not an existing directory reports
`InvalidDirectory` (the flashed rejection) and returns with the whole
configuration — active directory and filename-key mapping — unchanged. -/
theorem C5_invalid_directory (fs : FileSystem) (rawFolder ip : List Char) (cfg : Config)
    (hne : ¬ pyStrip rawFolder = [])
    (hdir : fs.lookupDir (pyStrip rawFolder) = none) :
    set_folder fs rawFolder ip cfg = (LoadResult.invalidDirectory, cfg) := by
  rw [set_folder]
  simp [hne, hdir]

/-- Witness for C5: loading `/no/such/path` over a prior snapshot. -/
theorem C5_invalid_directory_witness :
    set_folder fsShow ("/no/such/path".data) ("192.168.1.5".data) cfgMovie =
      (LoadResult.invalidDirectory, cfgMovie) :=
  C5_invalid_directory fsShow ("/no/such/path".data) ("192.168.1.5".data) cfgMovie
    (by decide) (by decide)

/-! Rendering facts about the playlist body. -/

theorem joinLines_cons_eq (h : List Char) (ls : List (List Char)) :
    joinLines (h :: ls) = h ++ '\n' :: (ls.map (fun l => l ++ ['\n'])).flatten := by
  induction ls generalizing h with
  | nil => simp [joinLines, joinNl]
  | cons l ls ih =>
    have hstep : joinLines (h :: l :: ls) = h ++ '\n' :: joinLines (l :: ls) := by
      rw [joinLines, joinLines, joinNl]
      · simp
      · simp
    rw [hstep, ih l]
    simp

/-- C7: the playlist body is the `#EXTM3U` header line followed by one
absolute URL `http://{hostIP}:{PORT}/files/{percent-encode(key)}` per
binding in the registry's stored order, each line ending in a newline (so
the document ends with a trailing newline); and the concrete one-entry
snapshot yields exactly the spec's document. -/
theorem C7_playlist_document (cfg : Config) (localIp d hip : List Char)
    (hdir : cfg.VIDEO_DIR = some d)
    (hhost : cfg.HOST_IP = some hip)
    (hipne : ¬ hip = []) :
    playlist_m3u cfg localIp =
      (PlaylistOutcome.body ("#EXTM3U".data ++ '\n' ::
        (cfg.SANITIZED_MAP.map (fun p => urlFor hip p.2 ++ ['\n'])).flatten), cfg) ∧
    playlist_m3u cfgMovie ("127.0.0.1".data) =
      (PlaylistOutcome.body ("#EXTM3U\nhttp://192.168.1.5:8000/files/movie.mp4\n".data),
        cfgMovie) := by
  constructor
  · rw [playlist_m3u, hdir]
    have hipe : hip.isEmpty = false := by
      cases hip with
      | nil => exact absurd rfl hipne
      | cons a l => rfl
    rw [hhost]
    simp only [hipe, Bool.false_eq_true, if_false]
    rw [joinLines_cons_eq]
    rw [List.map_map]
    rfl
  · decide

/-- Witness for C7 at the concrete one-entry snapshot. -/
theorem C7_playlist_document_witness :
    playlist_m3u cfgMovie ("127.0.0.1".data) =
      (PlaylistOutcome.body ("#EXTM3U".data ++ '\n' ::
        (cfgMovie.SANITIZED_MAP.map
          (fun p => urlFor ("192.168.1.5".data) p.2 ++ ['\n'])).flatten), cfgMovie) ∧
    playlist_m3u cfgMovie ("127.0.0.1".data) =
      (PlaylistOutcome.body ("#EXTM3U\nhttp://192.168.1.5:8000/files/movie.mp4\n".data),
        cfgMovie) :=
  C7_playlist_document cfgMovie ("127.0.0.1".data) ("/videos".data) ("192.168.1.5".data)
    rfl rfl (by decide)

/-- C8: a load is a deterministic function of the directory listing at the
submitted path: loading twice with an unchanged filesystem publishes the
same snapshot, and any two filesystems presenting the same listing produce
the same snapshot regardless of the prior configuration. -/
theorem C8_reload_deterministic (fs fs2 : FileSystem) (rawFolder ip : List Char)
    (cfg cfg2 : Config) (entries : List DirEntry)
    (hne : ¬ pyStrip rawFolder = [])
    (hdir : fs.lookupDir (pyStrip rawFolder) = some entries)
    (hdir2 : fs2.lookupDir (pyStrip rawFolder) = some entries) :
    (set_folder fs rawFolder ip ((set_folder fs rawFolder ip cfg).2)).2 =
      (set_folder fs rawFolder ip cfg).2 ∧
    (set_folder fs rawFolder ip cfg).2 = (set_folder fs2 rawFolder ip cfg2).2 := by
  rw [set_folder_ok fs rawFolder ip cfg entries hne hdir,
    set_folder_ok fs2 rawFolder ip cfg2 entries hne hdir2]
  rw [set_folder_ok fs rawFolder ip _ entries hne hdir]
  exact ⟨rfl, rfl⟩

/-- Witness for C8 at the concrete two-file directory. -/
theorem C8_reload_deterministic_witness :
    (set_folder fsShow ("/videos".data) ("192.168.1.5".data)
      ((set_folder fsShow ("/videos".data) ("192.168.1.5".data) initialConfig).2)).2 =
      (set_folder fsShow ("/videos".data) ("192.168.1.5".data) initialConfig).2 ∧
    (set_folder fsShow ("/videos".data) ("192.168.1.5".data) initialConfig).2 =
      (set_folder fsShow ("/videos".data) ("192.168.1.5".data) cfgMovie).2 :=
  C8_reload_deterministic fsShow fsShow ("/videos".data) ("192.168.1.5".data)
    initialConfig cfgMovie showListing (by decide) (by decide) (by decide)

/-- The old configuration standing when the C9 publication race is examined. -/
def cfgOld : Config :=
  { VIDEO_DIR := some ("/old".data)
    SANITIZED_MAP := [("a.mp4".data, "a.mp4".data)]
    HOST_IP := some ("10.0.0.1".data) }

/-- The configuration a load of `/videos` publishes over `cfgOld`. -/
def cfgNew : Config :=
  (set_folder fsShow ("/videos".data) ("192.168.1.5".data) cfgOld).2

/-- C9 counterexample: the publication in `set_folder` is three separate
`app.config` assignments (source lines 187-189), so a reader scheduled
after the `VIDEO_DIR` write but before the `SANITIZED_MAP` write observes
the new directory paired with the old mapping — a state that is neither the
complete old snapshot nor the complete new one, refuting atomicity as
claimed. -/
theorem C9_not_atomic_counterexample :
    applyWrites ((publishWrites cfgNew).take 1) cfgOld ≠ cfgOld ∧
    applyWrites ((publishWrites cfgNew).take 1) cfgOld ≠ cfgNew ∧
    (applyWrites ((publishWrites cfgNew).take 1) cfgOld).VIDEO_DIR = cfgNew.VIDEO_DIR ∧
    (applyWrites ((publishWrites cfgNew).take 1) cfgOld).SANITIZED_MAP =
      cfgOld.SANITIZED_MAP := by
  refine ⟨?_, ?_, by decide, by decide⟩
  · intro h
    have := congrArg Config.VIDEO_DIR h
    revert this
    decide
  · intro h
    have := congrArg Config.SANITIZED_MAP h
    revert this
    decide

/-- C9 amended: the mapping itself is built fully before being published by
a single assignment, so at every point between the three publication writes
the mapping a reader observes is either the complete old mapping or the
complete new one (never a partially populated dictionary), and once all
three writes have run the state is exactly the loaded configuration; but
between the `VIDEO_DIR` and `SANITIZED_MAP` writes the new directory is
visible with the old mapping. -/
theorem C9_publication_states (loaded cfg : Config) (k : Nat) (hk : k ≤ 3) :
    ((applyWrites ((publishWrites loaded).take k) cfg).SANITIZED_MAP = cfg.SANITIZED_MAP ∨
      (applyWrites ((publishWrites loaded).take k) cfg).SANITIZED_MAP =
        loaded.SANITIZED_MAP) ∧
    applyWrites (publishWrites loaded) cfg =
      { VIDEO_DIR := loaded.VIDEO_DIR
        SANITIZED_MAP := loaded.SANITIZED_MAP
        HOST_IP := loaded.HOST_IP } ∧
    (applyWrites ((publishWrites loaded).take 1) cfg).VIDEO_DIR = loaded.VIDEO_DIR ∧
    (applyWrites ((publishWrites loaded).take 1) cfg).SANITIZED_MAP = cfg.SANITIZED_MAP := by
  refine ⟨?_, rfl, rfl, rfl⟩
  interval_cases k
  · exact Or.inl rfl
  · exact Or.inl rfl
  · exact Or.inr rfl
  · exact Or.inr rfl

/-- Witness for the amended C9 at the concrete race position. -/
theorem C9_publication_states_witness :
    ((applyWrites ((publishWrites cfgNew).take 1) cfgOld).SANITIZED_MAP =
        cfgOld.SANITIZED_MAP ∨
      (applyWrites ((publishWrites cfgNew).take 1) cfgOld).SANITIZED_MAP =
        cfgNew.SANITIZED_MAP) ∧
    applyWrites (publishWrites cfgNew) cfgOld =
      { VIDEO_DIR := cfgNew.VIDEO_DIR
        SANITIZED_MAP := cfgNew.SANITIZED_MAP
        HOST_IP := cfgNew.HOST_IP } ∧
    (applyWrites ((publishWrites cfgNew).take 1) cfgOld).VIDEO_DIR = cfgNew.VIDEO_DIR ∧
    (applyWrites ((publishWrites cfgNew).take 1) cfgOld).SANITIZED_MAP =
      cfgOld.SANITIZED_MAP :=
  C9_publication_states cfgNew cfgOld 1 (by decide)

/-- C10: with no folder loaded (`VIDEO_DIR` is `None`), the `/files/<key>`
and `/playlist.m3u` handlers construct `Path(None)`, which raises before
any lookup: every request errors out (HTTP 500) instead of returning the
documented 404 or a playlist document. -/
theorem C10_no_folder_error (fs : FileSystem) (cfg : Config) (key localIp : List Char)
    (h : cfg.VIDEO_DIR = none) :
    serve_by_key fs cfg key = (ServeOutcome.error, cfg) ∧
    playlist_m3u cfg localIp = (PlaylistOutcome.error, cfg) := by
  constructor
  · rw [serve_by_key, h]
  · rw [playlist_m3u, h]

/-- Witness for C10 at the initial configuration. -/
theorem C10_no_folder_error_witness :
    serve_by_key fsShow initialConfig ("movie.mp4".data) =
      (ServeOutcome.error, initialConfig) ∧
    playlist_m3u initialConfig ("127.0.0.1".data) =
      (PlaylistOutcome.error, initialConfig) :=
  C10_no_folder_error fsShow initialConfig ("movie.mp4".data) ("127.0.0.1".data) rfl

/-! Round-trip of the percent encoding: UTF-8 layer. -/

theorem char_valid_ranges (c : Char) :
    c.toNat < 55296 ∨ (57343 < c.toNat ∧ c.toNat < 1114112) := by
  have h := c.valid
  unfold UInt32.isValidChar Nat.isValidChar at h
  exact h

theorem utf8EncodeChar_lt_256 (c : Char) : ∀ b ∈ utf8EncodeChar c, b < 256 := by
  have hval := char_valid_ranges c
  intro b hb
  rw [utf8EncodeChar] at hb
  by_cases h80 : c.toNat < 128
  · simp [h80] at hb
    omega
  · by_cases h2048 : c.toNat < 2048
    · simp [h80, h2048] at hb
      rcases hb with h | h <;> omega
    · by_cases h65536 : c.toNat < 65536
      · simp [h80, h2048, h65536] at hb
        rcases hb with h | h | h <;> omega
      · simp [h80, h2048, h65536] at hb
        rcases hb with h | h | h | h <;> omega

theorem utf8Decode_encode_cons (c : Char) (bs : List Nat) :
    utf8Decode (utf8EncodeChar c ++ bs) = c :: utf8Decode bs := by
  have hval := char_valid_ranges c
  have hofn : Char.ofNat c.toNat = c := Char.ofNat_toNat c
  by_cases h80 : c.toNat < 128
  · have henc : utf8EncodeChar c = [c.toNat] := by simp [utf8EncodeChar, h80]
    rw [henc, List.singleton_append, utf8Decode.eq_def]
    simp only [if_pos h80]
    rw [hofn]
  · by_cases h2048 : c.toNat < 2048
    · have henc : utf8EncodeChar c = [192 + c.toNat / 64, 128 + c.toNat % 64] := by
        simp [utf8EncodeChar, h80, h2048]
      have e1 : ¬ (192 + c.toNat / 64 < 128) := by omega
      have e2 : 194 ≤ 192 + c.toNat / 64 ∧ 192 + c.toNat / 64 < 224 := by omega
      have e3 : 128 ≤ 128 + c.toNat % 64 ∧ 128 + c.toNat % 64 < 192 := by omega
      have e4 : (192 + c.toNat / 64 - 192) * 64 + (128 + c.toNat % 64 - 128) = c.toNat := by
        omega
      rw [henc]
      show utf8Decode ((192 + c.toNat / 64) :: (128 + c.toNat % 64) :: bs) = c :: utf8Decode bs
      rw [utf8Decode.eq_def]
      simp only [if_neg e1, if_pos e2, if_pos e3]
      rw [e4, hofn]
    · by_cases h65536 : c.toNat < 65536
      · have henc : utf8EncodeChar c =
            [224 + c.toNat / 4096, 128 + c.toNat / 64 % 64, 128 + c.toNat % 64] := by
          simp [utf8EncodeChar, h80, h2048, h65536]
        have e1 : ¬ (224 + c.toNat / 4096 < 128) := by omega
        have e2 : ¬ (194 ≤ 224 + c.toNat / 4096 ∧ 224 + c.toNat / 4096 < 224) := by omega
        have e3 : 224 ≤ 224 + c.toNat / 4096 ∧ 224 + c.toNat / 4096 < 240 := by omega
        have e4 : 128 ≤ 128 + c.toNat / 64 % 64 ∧ 128 + c.toNat / 64 % 64 < 192 ∧
            (224 + c.toNat / 4096 = 224 → 160 ≤ 128 + c.toNat / 64 % 64) ∧
            (224 + c.toNat / 4096 = 237 → 128 + c.toNat / 64 % 64 < 160) := by omega
        have e5 : 128 ≤ 128 + c.toNat % 64 ∧ 128 + c.toNat % 64 < 192 := by omega
        have e6 : (224 + c.toNat / 4096 - 224) * 4096 + (128 + c.toNat / 64 % 64 - 128) * 64 +
            (128 + c.toNat % 64 - 128) = c.toNat := by omega
        rw [henc]
        show utf8Decode ((224 + c.toNat / 4096) :: (128 + c.toNat / 64 % 64) ::
          (128 + c.toNat % 64) :: bs) = c :: utf8Decode bs
        rw [utf8Decode.eq_def]
        simp only [if_neg e1, if_neg e2, if_pos e3, if_pos e4, if_pos e5]
        rw [e6, hofn]
      · have henc : utf8EncodeChar c = [240 + c.toNat / 262144, 128 + c.toNat / 4096 % 64,
            128 + c.toNat / 64 % 64, 128 + c.toNat % 64] := by
          simp [utf8EncodeChar, h80, h2048, h65536]
        have e1 : ¬ (240 + c.toNat / 262144 < 128) := by omega
        have e2 : ¬ (194 ≤ 240 + c.toNat / 262144 ∧ 240 + c.toNat / 262144 < 224) := by omega
        have e3 : ¬ (224 ≤ 240 + c.toNat / 262144 ∧ 240 + c.toNat / 262144 < 240) := by omega
        have e4 : 240 ≤ 240 + c.toNat / 262144 ∧ 240 + c.toNat / 262144 < 245 := by omega
        have e5 : 128 ≤ 128 + c.toNat / 4096 % 64 ∧ 128 + c.toNat / 4096 % 64 < 192 ∧
            (240 + c.toNat / 262144 = 240 → 144 ≤ 128 + c.toNat / 4096 % 64) ∧
            (240 + c.toNat / 262144 = 244 → 128 + c.toNat / 4096 % 64 < 144) := by omega
        have e6 : 128 ≤ 128 + c.toNat / 64 % 64 ∧ 128 + c.toNat / 64 % 64 < 192 := by omega
        have e7 : 128 ≤ 128 + c.toNat % 64 ∧ 128 + c.toNat % 64 < 192 := by omega
        have e8 : (240 + c.toNat / 262144 - 240) * 262144 +
            (128 + c.toNat / 4096 % 64 - 128) * 4096 +
            (128 + c.toNat / 64 % 64 - 128) * 64 + (128 + c.toNat % 64 - 128) = c.toNat := by
          omega
        rw [henc]
        show utf8Decode ((240 + c.toNat / 262144) :: (128 + c.toNat / 4096 % 64) ::
          (128 + c.toNat / 64 % 64) :: (128 + c.toNat % 64) :: bs) = c :: utf8Decode bs
        rw [utf8Decode.eq_def]
        simp only [if_neg e1, if_neg e2, if_neg e3, if_pos e4, if_pos e5, if_pos e6, if_pos e7]
        rw [e8, hofn]

theorem utf8Decode_flatMap (ds : List Char) (bs : List Nat) :
    utf8Decode (ds.flatMap utf8EncodeChar ++ bs) = ds ++ utf8Decode bs := by
  induction ds with
  | nil => simp
  | cons c ds ih =>
    rw [List.flatMap_cons, List.append_assoc, utf8Decode_encode_cons, ih]
    rfl

theorem utf8Decode_encList (ds : List Char) :
    utf8Decode (ds.flatMap utf8EncodeChar) = ds := by
  have := utf8Decode_flatMap ds []
  simpa [utf8Decode] using this

/-! Round-trip of the percent encoding: escape layer. -/

theorem hexVal_hexDigitChar (n : Nat) (h : n < 16) : hexVal (hexDigitChar n) = n := by
  interval_cases n <;> decide

theorem isHexDigit_hexDigitChar (n : Nat) (h : n < 16) :
    isHexDigit (hexDigitChar n) = true := by
  interval_cases n <;> decide

theorem isUnreserved_ne_pct (c : Char) (h : isUnreserved c = true) : ¬ (c = '%') := by
  rintro rfl
  revert h
  decide

theorem unquoteAux_cons_ne_pct (c : Char) (hc : ¬ (c = '%')) (rest : List Char)
    (acc : List Nat) :
    unquoteAux (c :: rest) acc = utf8Decode acc.reverse ++ c :: unquoteAux rest [] := by
  match rest with
  | [] => simp [unquoteAux, hc, utf8Decode]
  | [d] => simp [unquoteAux, hc]
  | d :: e :: rest2 => simp [unquoteAux, hc]

theorem unquoteAux_pct_hex (d e : Char) (hd : isHexDigit d = true)
    (he : isHexDigit e = true) (rest : List Char) (acc : List Nat) :
    unquoteAux ('%' :: d :: e :: rest) acc =
      unquoteAux rest ((hexVal d * 16 + hexVal e) :: acc) := by
  rw [unquoteAux, if_pos rfl, if_pos (by rw [hd, he]; rfl)]

theorem unquoteAux_escBytes (bl : List Nat) (hbl : ∀ b ∈ bl, b < 256) (s : List Char)
    (acc : List Nat) :
    unquoteAux (bl.flatMap escByte ++ s) acc = unquoteAux s (bl.reverse ++ acc) := by
  induction bl generalizing acc with
  | nil => simp
  | cons b bl ih =>
    have hb : b < 256 := hbl b (List.mem_cons_self _ _)
    have hbl' : ∀ x ∈ bl, x < 256 := fun x hx => hbl x (List.mem_cons_of_mem b hx)
    rw [List.flatMap_cons]
    show unquoteAux ('%' :: hexDigitChar (b / 16) :: hexDigitChar (b % 16) ::
      (bl.flatMap escByte ++ s)) acc = unquoteAux s ((b :: bl).reverse ++ acc)
    rw [unquoteAux_pct_hex _ _ (isHexDigit_hexDigitChar _ (by omega))
      (isHexDigit_hexDigitChar _ (by omega))]
    rw [hexVal_hexDigitChar _ (by omega), hexVal_hexDigitChar _ (by omega)]
    have hbv : b / 16 * 16 + b % 16 = b := by omega
    rw [hbv, ih hbl']
    simp

theorem unquoteAux_pquote (s : List Char) :
    ∀ ds : List Char,
      unquoteAux (pquote s) ((ds.flatMap utf8EncodeChar).reverse) = ds ++ s := by
  induction s with
  | nil =>
    intro ds
    show utf8Decode (ds.flatMap utf8EncodeChar).reverse.reverse = ds ++ []
    rw [List.reverse_reverse, utf8Decode_encList, List.append_nil]
  | cons c s ih =>
    intro ds
    show unquoteAux (pquoteChar c ++ pquote s) ((ds.flatMap utf8EncodeChar).reverse) = _
    by_cases hc : isUnreserved c
    · rw [pquoteChar, if_pos hc, List.singleton_append,
        unquoteAux_cons_ne_pct c (isUnreserved_ne_pct c hc)]
      have h0 : unquoteAux (pquote s) (([] : List Char).flatMap utf8EncodeChar).reverse =
          [] ++ s := ih []
      simp only [List.flatMap_nil, List.reverse_nil, List.nil_append] at h0
      rw [h0, List.reverse_reverse, utf8Decode_encList]
    · rw [pquoteChar, if_neg hc, unquoteAux_escBytes (utf8EncodeChar c)
        (utf8EncodeChar_lt_256 c) (pquote s) _]
      have hacc : (utf8EncodeChar c).reverse ++ (ds.flatMap utf8EncodeChar).reverse =
          ((ds ++ [c]).flatMap utf8EncodeChar).reverse := by
        rw [List.flatMap_append, List.reverse_append]
        simp
      rw [hacc, ih (ds ++ [c])]
      simp

/-- Decoding undoes encoding: `unquote(quote(s, safe='')) == s`. -/
theorem punquote_pquote (s : List Char) : punquote (pquote s) = s := by
  have h := unquoteAux_pquote s []
  simpa [punquote] using h

/-- Dictionary scan: with duplicate-free values, the first entry whose
sanitized value equals `k` is exactly the binding carrying `k`. -/
theorem find?_snd_of_mem (m : List (List Char × List Char)) (a k : List Char)
    (hnd : (m.map Prod.snd).Nodup) (hmem : (a, k) ∈ m) :
    m.find? (fun p => p.2 == k) = some (a, k) := by
  induction m with
  | nil => cases hmem
  | cons p m ih =>
    rcases List.mem_cons.mp hmem with heq | hmem'
    · rw [← heq]
      apply List.find?_cons_of_pos
      simp
    · rw [List.map_cons, List.nodup_cons] at hnd
      obtain ⟨hp2notin, hndtail⟩ := hnd
      have hkmem : k ∈ m.map Prod.snd := List.mem_map_of_mem Prod.snd hmem'
      have hpk : ¬ (p.2 = k) := fun h => hp2notin (h ▸ hkmem)
      rw [List.find?_cons_of_neg _ (by simpa using hpk)]
      exact ih hndtail hmem'

/-- C3: for every binding (filename, key) of a loaded snapshot, requesting
`/files/` with the percent-encoded key — which the handler percent-decodes
back — resolves through the snapshot to exactly that filename, leaving the
configuration untouched. -/
theorem C3_key_roundtrip (fs fs2 : FileSystem) (rawFolder ip : List Char) (cfg : Config)
    (entries : List DirEntry) (a k : List Char)
    (hne : ¬ pyStrip rawFolder = [])
    (hdir : fs.lookupDir (pyStrip rawFolder) = some entries)
    (hnd : (entries.map DirEntry.name).Nodup)
    (hmem : (a, k) ∈ (set_folder fs rawFolder ip cfg).2.SANITIZED_MAP) :
    serve_by_key fs2 ((set_folder fs rawFolder ip cfg).2) (pquote k) =
      (ServeOutcome.file a, (set_folder fs rawFolder ip cfg).2) := by
  rw [set_folder_ok fs rawFolder ip cfg entries hne hdir] at hmem ⊢
  have hmem' : (a, k) ∈ buildMap (acceptedNames entries) := hmem
  have hsndnd : ((buildMap (acceptedNames entries)).map Prod.snd).Nodup :=
    buildMap_snd_nodup _ (acceptedNames_nodup entries hnd)
  have hfind := find?_snd_of_mem _ a k hsndnd hmem'
  simp only [serve_by_key, punquote_pquote, hfind]

/-- Witness for C3 at the concrete two-file directory. -/
theorem C3_key_roundtrip_witness :
    serve_by_key fsShow
      ((set_folder fsShow ("/videos".data) ("192.168.1.5".data) initialConfig).2)
      (pquote ("Show 2020 Ep1.mkv".data)) =
    (ServeOutcome.file ("Show (2020) Ep1.mkv".data),
      (set_folder fsShow ("/videos".data) ("192.168.1.5".data) initialConfig).2) :=
  C3_key_roundtrip fsShow fsShow ("/videos".data) ("192.168.1.5".data) initialConfig
    showListing ("Show (2020) Ep1.mkv".data) ("Show 2020 Ep1.mkv".data)
    (by decide) (by decide) (by decide) (by decide)

/-! Structure of `str.split()` and `" ".join`: the lemmas behind the
sanitizer characterisation. -/

theorem ne_nil_of_not_isEmpty {α : Type} {l : List α} (h : ¬ (l.isEmpty = true)) :
    l ≠ [] := by
  cases l with
  | nil => exact absurd rfl h
  | cons a t => exact List.cons_ne_nil a t

theorem joinSp_cons_cons (w w' : List Char) (ws' : List (List Char)) :
    joinSp (w :: w' :: ws') = w ++ ' ' :: joinSp (w' :: ws') := by
  rw [joinSp]
  simp

theorem splitAux_append_word (w r acc : List Char)
    (h : ∀ c ∈ w, isPySpace c = false) :
    splitAux (w ++ r) acc = splitAux r (w.reverse ++ acc) := by
  induction w generalizing acc with
  | nil => simp
  | cons c w ih =>
    have hc : isPySpace c = false := h c (List.mem_cons_self _ _)
    rw [List.cons_append, splitAux, hc]
    simp only [Bool.false_eq_true, if_neg]
    rw [ih (c :: acc) (fun d hd => h d (List.mem_cons_of_mem c hd))]
    simp

theorem splitAux_words (s : List Char) :
    ∀ acc : List Char, (∀ c ∈ acc, isPySpace c = false) →
      ∀ w ∈ splitAux s acc, w ≠ [] ∧ ∀ c ∈ w, isPySpace c = false := by
  induction s with
  | nil =>
    intro acc hacc w hw
    rw [splitAux] at hw
    by_cases he : acc.isEmpty
    · simp [he] at hw
    · simp [he] at hw
      subst hw
      constructor
      · intro hcontra
        exact (ne_nil_of_not_isEmpty he) (by simpa using hcontra)
      · intro c hc
        exact hacc c (by simpa using hc)
  | cons c s ih =>
    intro acc hacc w hw
    rw [splitAux] at hw
    by_cases hc : isPySpace c
    · rw [if_pos hc] at hw
      by_cases he : acc.isEmpty
      · rw [if_pos he] at hw
        exact ih [] (by simp) w hw
      · rw [if_neg he] at hw
        rcases List.mem_cons.mp hw with heq | hw'
        · subst heq
          constructor
          · intro hcontra
            exact (ne_nil_of_not_isEmpty he) (by simpa using hcontra)
          · intro d hd
            exact hacc d (by simpa using hd)
        · exact ih [] (by simp) w hw'
    · rw [if_neg hc] at hw
      refine ih (c :: acc) ?_ w hw
      intro d hd
      rcases List.mem_cons.mp hd with rfl | hd'
      · simpa using hc
      · exact hacc d hd'

theorem pySplit_words (s : List Char) :
    ∀ w ∈ pySplit s, w ≠ [] ∧ ∀ c ∈ w, isPySpace c = false :=
  splitAux_words s [] (by simp)

theorem pySplit_joinSp (ws : List (List Char))
    (h : ∀ w ∈ ws, w ≠ [] ∧ ∀ c ∈ w, isPySpace c = false) :
    pySplit (joinSp ws) = ws := by
  induction ws with
  | nil => rfl
  | cons w ws ih =>
    have hw := h w (List.mem_cons_self _ _)
    have hws : ∀ w ∈ ws, w ≠ [] ∧ ∀ c ∈ w, isPySpace c = false :=
      fun v hv => h v (List.mem_cons_of_mem w hv)
    cases ws with
    | nil =>
      show splitAux (joinSp [w]) [] = [w]
      have hj : joinSp [w] = w := rfl
      rw [hj, ← List.append_nil w, splitAux_append_word w [] [] hw.2]
      rw [splitAux]
      have : w.reverse.isEmpty = false := by
        cases hverse : w.reverse with
        | nil => exact absurd (by simpa using hverse) hw.1
        | cons a l => simp [hverse]
      simp [List.append_nil, this]
    | cons w' ws' =>
      show splitAux (joinSp (w :: w' :: ws')) [] = w :: w' :: ws'
      rw [joinSp_cons_cons, splitAux_append_word w _ [] hw.2, List.append_nil, splitAux]
      have hsp : isPySpace ' ' = true := by decide
      have hne : w.reverse.isEmpty = false := by
        cases hverse : w.reverse with
        | nil => exact absurd (by simpa using hverse) hw.1
        | cons a l => simp [hverse]
      rw [if_pos hsp, if_neg (by simp [hne]), List.reverse_reverse]
      have hps : splitAux (joinSp (w' :: ws')) [] = w' :: ws' := ih hws
      rw [hps]

theorem splitAux_flatten (s : List Char) :
    ∀ acc : List Char,
      (splitAux s acc).flatten = acc.reverse ++ s.filter (fun c => !isPySpace c) := by
  induction s with
  | nil =>
    intro acc
    rw [splitAux]
    by_cases he : acc.isEmpty
    · have : acc = [] := by simpa using he
      simp [this, he]
    · simp [he]
  | cons c s ih =>
    intro acc
    rw [splitAux]
    by_cases hc : isPySpace c
    · rw [if_pos hc]
      by_cases he : acc.isEmpty
      · have hae : acc = [] := by simpa using he
        rw [if_pos he, ih [], hae]
        simp [hc]
      · rw [if_neg he]
        rw [List.flatten_cons, ih []]
        simp [hc]
    · rw [if_neg hc, ih (c :: acc)]
      simp [hc]

theorem joinSp_filter_nonspace (ws : List (List Char))
    (h : ∀ w ∈ ws, ∀ c ∈ w, isPySpace c = false) :
    (joinSp ws).filter (fun c => !isPySpace c) = ws.flatten := by
  induction ws with
  | nil => rfl
  | cons w ws ih =>
    have hw := h w (List.mem_cons_self _ _)
    have hws : ∀ v ∈ ws, ∀ c ∈ v, isPySpace c = false :=
      fun v hv => h v (List.mem_cons_of_mem w hv)
    have hfw : w.filter (fun c => !isPySpace c) = w := by
      apply List.filter_eq_self.mpr
      intro c hc
      simp [hw c hc]
    cases ws with
    | nil =>
      show (joinSp [w]).filter (fun c => !isPySpace c) = [w].flatten
      have hj : joinSp [w] = w := rfl
      rw [hj, hfw]
      simp
    | cons w' ws' =>
      rw [joinSp_cons_cons, List.filter_append, hfw, List.flatten_cons]
      have hspace : isPySpace ' ' = true := by decide
      have hsp : ((' ' :: joinSp (w' :: ws')).filter (fun c => !isPySpace c)) =
          (joinSp (w' :: ws')).filter (fun c => !isPySpace c) := by
        rw [List.filter_cons]
        simp [hspace]
      rw [hsp, ih hws]

theorem mem_joinSp (ws : List (List Char)) (c : Char) (hc : c ∈ joinSp ws) :
    c = ' ' ∨ ∃ w ∈ ws, c ∈ w := by
  induction ws with
  | nil => cases hc
  | cons w ws ih =>
    cases ws with
    | nil =>
      have hj : joinSp [w] = w := rfl
      rw [hj] at hc
      exact Or.inr ⟨w, List.mem_cons_self _ _, hc⟩
    | cons w' ws' =>
      rw [joinSp_cons_cons] at hc
      rcases List.mem_append.mp hc with hcw | hcr
      · exact Or.inr ⟨w, List.mem_cons_self _ _, hcw⟩
      · rcases List.mem_cons.mp hcr with rfl | hcr'
        · exact Or.inl rfl
        · rcases ih hcr' with hsp | ⟨v, hv, hcv⟩
          · exact Or.inl hsp
          · exact Or.inr ⟨v, List.mem_cons_of_mem w hv, hcv⟩

theorem splitAux_chars (s : List Char) :
    ∀ (acc w : List Char) (c : Char), w ∈ splitAux s acc → c ∈ w →
      c ∈ acc ∨ c ∈ s := by
  induction s with
  | nil =>
    intro acc w c hw hc
    rw [splitAux] at hw
    by_cases he : acc.isEmpty
    · simp [he] at hw
    · simp [he] at hw
      subst hw
      exact Or.inl (by simpa using hc)
  | cons d s ih =>
    intro acc w c hw hc
    rw [splitAux] at hw
    by_cases hd : isPySpace d
    · rw [if_pos hd] at hw
      by_cases he : acc.isEmpty
      · rw [if_pos he] at hw
        rcases ih [] w c hw hc with h | h
        · cases h
        · exact Or.inr (List.mem_cons_of_mem d h)
      · rw [if_neg he] at hw
        rcases List.mem_cons.mp hw with heq | hw'
        · subst heq
          exact Or.inl (by simpa using hc)
        · rcases ih [] w c hw' hc with h | h
          · cases h
          · exact Or.inr (List.mem_cons_of_mem d h)
    · rw [if_neg hd] at hw
      rcases ih (d :: acc) w c hw hc with h | h
      · rcases List.mem_cons.mp h with rfl | h'
        · exact Or.inr (List.mem_cons_self _ _)
        · exact Or.inl h'
      · exact Or.inr (List.mem_cons_of_mem d h)

theorem joinSp_append_single (l : List (List Char)) (w : List Char) (hl : l ≠ []) :
    joinSp (l ++ [w]) = joinSp l ++ ' ' :: w := by
  induction l with
  | nil => exact absurd rfl hl
  | cons x l ih =>
    cases l with
    | nil =>
      show joinSp [x, w] = joinSp [x] ++ ' ' :: w
      rw [joinSp_cons_cons]
      rfl
    | cons y l' =>
      show joinSp (x :: ((y :: l') ++ [w])) = joinSp (x :: y :: l') ++ ' ' :: w
      have hxl : x :: ((y :: l') ++ [w]) = x :: (y :: (l' ++ [w])) := by simp
      rw [hxl, joinSp_cons_cons]
      have hyl : y :: (l' ++ [w]) = (y :: l') ++ [w] := by simp
      rw [hyl, ih (List.cons_ne_nil y l'), joinSp_cons_cons]
      simp

theorem joinSp_reverse (ws : List (List Char)) :
    (joinSp ws).reverse = joinSp ((ws.map List.reverse).reverse) := by
  induction ws with
  | nil => rfl
  | cons w ws ih =>
    cases ws with
    | nil =>
      show (joinSp [w]).reverse = joinSp [w.reverse]
      rfl
    | cons w' ws' =>
      rw [joinSp_cons_cons, List.reverse_append]
      have h1 : (' ' :: joinSp (w' :: ws')).reverse =
          (joinSp (w' :: ws')).reverse ++ [' '] := by simp
      rw [h1, ih, List.append_assoc, List.singleton_append]
      have hne : ((w' :: ws').map List.reverse).reverse ≠ [] := by simp
      rw [← joinSp_append_single _ w.reverse hne]
      have h2 : ((w :: w' :: ws').map List.reverse).reverse =
          ((w' :: ws').map List.reverse).reverse ++ [w.reverse] := by simp
      rw [h2]

theorem joinSp_dropWhile (ws : List (List Char))
    (h : ∀ w ∈ ws, w ≠ [] ∧ ∀ c ∈ w, isPySpace c = false) :
    (joinSp ws).dropWhile isPySpace = joinSp ws := by
  cases ws with
  | nil => rfl
  | cons w ws' =>
    have hw := h w (List.mem_cons_self _ _)
    cases w with
    | nil => exact absurd rfl hw.1
    | cons c w'' =>
      have hc : isPySpace c = false := hw.2 c (List.mem_cons_self _ _)
      cases ws' with
      | nil =>
        show List.dropWhile isPySpace (joinSp [c :: w'']) = joinSp [c :: w'']
        have hj : joinSp [c :: w''] = c :: w'' := rfl
        rw [hj, List.dropWhile_cons_of_neg (by simp [hc])]
      | cons w' ws'' =>
        rw [joinSp_cons_cons, List.cons_append,
          List.dropWhile_cons_of_neg (by simp [hc])]

theorem words_reversed (ws : List (List Char))
    (h : ∀ w ∈ ws, w ≠ [] ∧ ∀ c ∈ w, isPySpace c = false) :
    ∀ w ∈ (ws.map List.reverse).reverse, w ≠ [] ∧ ∀ c ∈ w, isPySpace c = false := by
  intro w hw
  rw [List.mem_reverse, List.mem_map] at hw
  rcases hw with ⟨v, hv, rfl⟩
  have := h v hv
  constructor
  · intro hcontra
    exact this.1 (by simpa using hcontra)
  · intro c hc
    exact this.2 c (by simpa using hc)

theorem pyStrip_joinSp (ws : List (List Char))
    (h : ∀ w ∈ ws, w ≠ [] ∧ ∀ c ∈ w, isPySpace c = false) :
    pyStrip (joinSp ws) = joinSp ws := by
  rw [pyStrip, joinSp_dropWhile ws h, joinSp_reverse,
    joinSp_dropWhile _ (words_reversed ws h), ← joinSp_reverse, List.reverse_reverse]

theorem joinSp_filter_space_length (ws : List (List Char))
    (h : ∀ w ∈ ws, ∀ c ∈ w, isPySpace c = false) :
    ((joinSp ws).filter (fun c => isPySpace c)).length = ws.length - 1 := by
  induction ws with
  | nil => rfl
  | cons w ws ih =>
    have hw := h w (List.mem_cons_self _ _)
    have hws : ∀ v ∈ ws, ∀ c ∈ v, isPySpace c = false :=
      fun v hv => h v (List.mem_cons_of_mem w hv)
    have hfw : w.filter (fun c => isPySpace c) = [] := by
      rw [List.filter_eq_nil_iff]
      intro c hc
      simp [hw c hc]
    cases ws with
    | nil =>
      show ((joinSp [w]).filter (fun c => isPySpace c)).length = 0
      have hj : joinSp [w] = w := rfl
      rw [hj, hfw]
      rfl
    | cons w' ws' =>
      rw [joinSp_cons_cons, List.filter_append, hfw, List.filter_cons]
      have hspace : isPySpace ' ' = true := by decide
      simp only [hspace, if_pos, List.nil_append]
      rw [List.length_cons, ih hws]
      simp

/-- C4: the sanitizer removes exactly the two parenthesis characters,
collapses every whitespace run (including whitespace uncovered by the
removal) into a single space character, trims the ends, performs no other
transformation (every output character is a space or a preserved input
character; the non-whitespace characters are preserved exactly and in
order; the whitespace-run structure is the split word structure; space
count is exactly one per separator), and is idempotent. -/
theorem C4_sanitize_characterisation (x : List Char) :
    sanitize_visible (sanitize_visible x) = sanitize_visible x ∧
    (∀ c ∈ sanitize_visible x, c = ' ' ∨ (c ∈ x ∧ ¬ (c = '(') ∧ ¬ (c = ')'))) ∧
    (sanitize_visible x).filter (fun c => !isPySpace c) =
      (removeParens x).filter (fun c => !isPySpace c) ∧
    pySplit (sanitize_visible x) = pySplit (removeParens x) ∧
    (∀ c ∈ sanitize_visible x, isPySpace c = true → c = ' ') ∧
    ((sanitize_visible x).filter (fun c => isPySpace c)).length =
      (pySplit (removeParens x)).length - 1 ∧
    pyStrip (sanitize_visible x) = sanitize_visible x := by
  have hwords := pySplit_words (removeParens x)
  have hwords' : ∀ w ∈ pySplit (removeParens x), ∀ c ∈ w, isPySpace c = false :=
    fun w hw => (hwords w hw).2
  have hd : pySplit (sanitize_visible x) = pySplit (removeParens x) := by
    rw [sanitize_visible]
    exact pySplit_joinSp _ hwords
  have hmem : ∀ c ∈ sanitize_visible x, c = ' ' ∨ c ∈ removeParens x := by
    intro c hc
    rw [sanitize_visible] at hc
    rcases mem_joinSp _ c hc with h | ⟨w, hw, hcw⟩
    · exact Or.inl h
    · rcases splitAux_chars (removeParens x) [] w c hw hcw with h | h
      · cases h
      · exact Or.inr h
  have hrp_mem : ∀ c ∈ removeParens x, c ∈ x ∧ ¬ (c = '(') ∧ ¬ (c = ')') := by
    intro c hc
    rw [removeParens, List.mem_filter] at hc
    have h2 := hc.2
    refine ⟨hc.1, ?_, ?_⟩ <;> (intro heq; subst heq; simp at h2)
  have hb : ∀ c ∈ sanitize_visible x, c = ' ' ∨ (c ∈ x ∧ ¬ (c = '(') ∧ ¬ (c = ')')) := by
    intro c hc
    rcases hmem c hc with h | h
    · exact Or.inl h
    · exact Or.inr (hrp_mem c h)
  have he : ∀ c ∈ sanitize_visible x, isPySpace c = true → c = ' ' := by
    intro c hc hsp
    rw [sanitize_visible] at hc
    rcases mem_joinSp _ c hc with h | ⟨w, hw, hcw⟩
    · exact h
    · exact absurd hsp (by simp [hwords' w hw c hcw])
  have hc3 : (sanitize_visible x).filter (fun c => !isPySpace c) =
      (removeParens x).filter (fun c => !isPySpace c) := by
    rw [sanitize_visible, joinSp_filter_nonspace _ hwords']
    have hfl := splitAux_flatten (removeParens x) []
    simpa [pySplit] using hfl
  have hf : ((sanitize_visible x).filter (fun c => isPySpace c)).length =
      (pySplit (removeParens x)).length - 1 := by
    rw [sanitize_visible]
    exact joinSp_filter_space_length _ hwords'
  have hg : pyStrip (sanitize_visible x) = sanitize_visible x := by
    rw [sanitize_visible]
    exact pyStrip_joinSp _ hwords
  have hrp_self : removeParens (sanitize_visible x) = sanitize_visible x := by
    rw [removeParens]
    apply List.filter_eq_self.mpr
    intro c hc
    rcases hb c hc with rfl | ⟨_, h1, h2⟩
    · decide
    · simp [h1, h2]
  have ha : sanitize_visible (sanitize_visible x) = sanitize_visible x := by
    show joinSp (pySplit (removeParens (sanitize_visible x))) = sanitize_visible x
    rw [hrp_self, hd]
    rfl
  exact ⟨ha, hb, hc3, hd, he, hf, hg⟩

/-- C6: when the decoded request key was never assigned in the current
snapshot, the handler answers 404 if no on-disk file bears that exact name,
and otherwise the fallback fresh directory listing finds the file; in both
cases the configuration (registry) is left untouched. -/
theorem C6_not_found_fallback (fs : FileSystem) (cfg : Config) (key dir : List Char)
    (entries : List DirEntry)
    (hdir : cfg.VIDEO_DIR = some dir)
    (hfs : fs.lookupDir dir = some entries)
    (hnotkey : punquote key ∉ cfg.SANITIZED_MAP.map Prod.snd) :
    (punquote key ∉ entries.map DirEntry.name →
      serve_by_key fs cfg key = (ServeOutcome.notFound, cfg)) ∧
    (punquote key ∈ entries.map DirEntry.name →
      (serve_by_key fs cfg key).1 = ServeOutcome.file (punquote key) ∧
      (serve_by_key fs cfg key).2 = cfg) := by
  have hfindmap : cfg.SANITIZED_MAP.find? (fun p => p.2 == punquote key) = none := by
    rw [List.find?_eq_none]
    intro p hp hbeq
    refine absurd ?_ hnotkey
    have hpk : p.2 = punquote key := by simpa using hbeq
    exact hpk ▸ List.mem_map_of_mem Prod.snd hp
  constructor
  · intro hnotdisk
    have hfinddisk : entries.find? (fun e => e.name == punquote key) = none := by
      rw [List.find?_eq_none]
      intro e he hbeq
      refine absurd ?_ hnotdisk
      have hen : e.name = punquote key := by simpa using hbeq
      exact hen ▸ List.mem_map_of_mem DirEntry.name he
    simp only [serve_by_key, hdir, hfindmap, hfs, hfinddisk]
  · intro hdisk
    cases hfind : entries.find? (fun e => e.name == punquote key) with
    | none =>
      exfalso
      rcases List.mem_map.mp hdisk with ⟨e, he, hname⟩
      have hnone := List.find?_eq_none.mp hfind e he
      exact hnone (by simp [hname])
    | some e' =>
      have hname : e'.name = punquote key := by
        have hp := List.find?_some hfind
        simpa using hp
      constructor
      · simp only [serve_by_key, hdir, hfindmap, hfs, hfind]
        rw [hname]
      · simp only [serve_by_key, hdir, hfindmap, hfs, hfind]

/-- Witness for C6 at the concrete snapshot: `missing.mp4` was never
assigned and is not on disk. -/
theorem C6_not_found_fallback_witness :
    (punquote ("missing.mp4".data) ∉ showListing.map DirEntry.name →
      serve_by_key fsShow cfgMovie ("missing.mp4".data) =
        (ServeOutcome.notFound, cfgMovie)) ∧
    (punquote ("missing.mp4".data) ∈ showListing.map DirEntry.name →
      (serve_by_key fsShow cfgMovie ("missing.mp4".data)).1 =
        ServeOutcome.file (punquote ("missing.mp4".data)) ∧
      (serve_by_key fsShow cfgMovie ("missing.mp4".data)).2 = cfgMovie) :=
  C6_not_found_fallback fsShow cfgMovie ("missing.mp4".data) ("/videos".data) showListing
    rfl (by decide) (by simp [punquote, unquoteAux, utf8Decode, cfgMovie])

end HomeStream
